import Mathlib

/-!
Shallow embedding of the Paillier voting code (`Paillier_Vote.py`,
`Realistic_Election.py`, `Paillier_Demo.py`).

Python big integers are modelled by `Nat` (all values in this code are
nonnegative; the one signed input, the plaintext argument of
`paillier_encrypt` and the index argument of `encode_vote`, is modelled
by `Int`). A Python function that can raise is modelled by
`Except String`; the string records the Python exception. The calls to
`random.choice` inside `generatePaillierKey` are modelled by passing the
random draws in as extra `Nat` arguments (`ip`, `iq`), interpreted as an
arbitrary index into the list being drawn from.
-/

namespace PaillierVote

/-- `lcm(a, b) = a // gcd(a, b) * b` (Paillier_Vote.py line 28). -/
def lcm (a b : Nat) : Nat := a / Nat.gcd a b * b

/-- Square-and-multiply core of Python's three-argument `pow`; the first
argument is recursion fuel (any fuel above the exponent suffices). -/
def powModFuel : Nat → Nat → Nat → Nat → Nat
  | 0, _, _, m => 1 % m
  | fuel + 1, b, e, m =>
    if e = 0 then 1 % m
    else
      let h := powModFuel fuel (b * b % m) (e / 2) m
      if e % 2 = 1 then h * (b % m) % m else h

/-- Python's three-argument `pow(b, e, m)`: modular exponentiation by
squaring; equals `b ^ e % m` (lemma `powMod_eq`). -/
def powMod (b e m : Nat) : Nat := powModFuel (e + 1) b e m

/-- Fueled extended Euclidean algorithm. `egcdFuel fuel a b = (g, x, y)`
with `g = gcd a b` and `x * a + y * b = g`, provided `a < fuel`. -/
def egcdFuel : Nat → Nat → Nat → Nat × Int × Int
  | 0, _, b => (b, 0, 1)
  | fuel + 1, a, b =>
    if a = 0 then (b, 0, 1)
    else
      let r := egcdFuel fuel (b % a) a
      (r.1, r.2.2 - ((b / a : Nat) : Int) * r.2.1, r.2.1)

/-- Extended Euclidean algorithm: `(gcd a b, x, y)` with `x*a + y*b = gcd`. -/
def egcd (a b : Nat) : Nat × Int × Int := egcdFuel (a + 1) a b

/-- `modInv(a, m)` (Paillier_Vote.py lines 39-43): raises `ValueError`
when `gcd(a, m) != 1`, otherwise returns `pow(a, -1, m)`, the unique
modular inverse of `a` in `[0, m)`, computed here by extended Euclid. -/
def modInv (a m : Nat) : Except String Nat :=
  if Nat.gcd a m ≠ 1 then
    .error "ValueError: No inverse"
  else
    .ok (((egcd a m).2.1 % (m : Int)).toNat)

/-- `PaillierPublicKey` (Paillier_Vote.py lines 69-73): fields `n`, `g`
and the derived `n_sq` stored by the constructor. -/
structure PaillierPublicKey where
  n : Nat
  g : Nat
  n_sq : Nat
deriving Repr, DecidableEq

/-- The `PaillierPublicKey.__init__` constructor: sets `n_sq = n * n`. -/
def mkPublicKey (n g : Nat) : PaillierPublicKey := ⟨n, g, n * n⟩

/-- `PaillierPrivateKey` (Paillier_Vote.py lines 89-92). -/
structure PaillierPrivateKey where
  lambda_ : Nat
  mu : Nat
deriving Repr, DecidableEq

/-- The fixed prime pool of `generatePaillierKey` (Paillier_Vote.py line 141). -/
def small_primes : List Nat := [101, 103, 107, 109, 113, 127, 131, 137, 139, 149]

/-- `p = random.choice(small_primes)` (line 142); `ip` is the random draw,
reduced modulo the pool size to pick an element. -/
def pDraw (ip : Nat) : Nat := small_primes.getD (ip % small_primes.length) 0

/-- `q = random.choice([x for x in small_primes if x != p])` (line 143). -/
def qDraw (ip iq : Nat) : Nat :=
  let pool := small_primes.filter (fun x => x ≠ pDraw ip)
  pool.getD (iq % pool.length) 0

/-- Body of `generatePaillierKey` after the two primes have been drawn
(Paillier_Vote.py lines 145-165). -/
def paillierFrom (p q : Nat) : Except String (PaillierPublicKey × PaillierPrivateKey) :=
  let n := p * q
  let lambda_ := lcm (p - 1) (q - 1)
  let g := n + 1
  let n_sq := n * n
  let x := powMod g lambda_ n_sq
  let l_val := (x - 1) / n
  match modInv l_val n with
  | .error e => .error e
  | .ok mu => .ok (mkPublicKey n g, ⟨lambda_, mu⟩)

/-- `generatePaillierKey(bits=512)` (Paillier_Vote.py lines 133-165). The
`bits` parameter is accepted but never read by the body; `ip` and `iq`
model the two `random.choice` draws. -/
def generatePaillierKey (bits : Nat) (ip iq : Nat) :
    Except String (PaillierPublicKey × PaillierPrivateKey) :=
  paillierFrom (pDraw ip) (qDraw ip iq)

/-- `paillier_encrypt(pub, m, r)` (Paillier_Vote.py lines 184-200) with an
explicitly supplied randomizer `r` (when `r is None` the code draws a
random coprime `r`; theorems quantify over every such `r`). Raises
`ValueError` unless `0 <= m < n`. -/
def paillier_encrypt (pub : PaillierPublicKey) (m : Int) (r : Nat) : Except String Nat :=
  if ¬ (0 ≤ m ∧ m < (pub.n : Int)) then
    .error "ValueError: Plaintext is out of range here. It needs to be: 0 <= m < n"
  else
    .ok (powMod pub.g m.toNat pub.n_sq * powMod r pub.n pub.n_sq % pub.n_sq)

/-- `paillier_decrypt(pub, priv, c)` (Paillier_Vote.py lines 210-221). -/
def paillier_decrypt (pub : PaillierPublicKey) (priv : PaillierPrivateKey) (c : Nat) : Nat :=
  let x := powMod c priv.lambda_ pub.n_sq
  let l_val := (x - 1) / pub.n
  l_val * priv.mu % pub.n

/-- `homomorphic_add(pub, c1, c2)` (Paillier_Vote.py lines 237-238). -/
def homomorphic_add (pub : PaillierPublicKey) (c1 c2 : Nat) : Nat :=
  c1 * c2 % pub.n_sq

/-- `homomorphic_add_many(pub, ciphertexts)` (Paillier_Vote.py lines 244-251):
the empty list yields `pow(g, 0, n_sq) * pow(1, n, n_sq) % n_sq`, otherwise
the ciphertexts are folded into `result` starting from `1`. -/
def homomorphic_add_many (pub : PaillierPublicKey) (ciphertexts : List Nat) : Nat :=
  if ciphertexts.isEmpty then
    powMod pub.g 0 pub.n_sq * powMod 1 pub.n pub.n_sq % pub.n_sq
  else
    ciphertexts.foldl (fun result c => result * c % pub.n_sq) 1

/-- Python list assignment `l[i] = x`: a nonnegative index must be below
`len(l)`, a negative index wraps to `len(l) + i`, anything else raises
`IndexError`. -/
def pyListSet (l : List Nat) (i : Int) (x : Nat) : Except String (List Nat) :=
  if 0 ≤ i ∧ i < (l.length : Int) then
    .ok (l.set i.toNat x)
  else if -(l.length : Int) ≤ i ∧ i < 0 then
    .ok (l.set (i + l.length).toNat x)
  else
    .error "IndexError: list assignment index out of range"

/-- `encode_vote(index, num)` (Realistic_Election.py lines 32-35):
`v = [0] * num; v[index] = 1; return v`. -/
def encode_vote (index : Int) (num : Nat) : Except String (List Nat) :=
  pyListSet (List.replicate num 0) index 1

/-- `add_vectors(enc_vec_a, enc_vec_b, pub)` (Realistic_Election.py lines
44-45): elementwise `homomorphic_add` over `zip`, which silently stops at
the shorter list. -/
def add_vectors (enc_vec_a enc_vec_b : List Nat) (pub : PaillierPublicKey) : List Nat :=
  (enc_vec_a.zip enc_vec_b).map (fun ab => homomorphic_add pub ab.1 ab.2)

/-- Python `max(l)` on a list: raises `ValueError` on the empty list,
otherwise the maximum element. -/
def pyMax : List Nat → Except String Nat
  | [] => .error "ValueError: max() arg is an empty sequence"
  | h :: t => .ok (t.foldl Nat.max h)

/-- Python `l.index(x)`: index of the first occurrence of `x`, raising
`ValueError` when `x` is absent. -/
def pyIndex : List Nat → Nat → Except String Nat
  | [], _ => .error "ValueError: x is not in list"
  | h :: t, x => if h = x then .ok 0 else (pyIndex t x).map (· + 1)

/-- `tally.index(max(tally))` (Realistic_Election.py line 114 and
Paillier_Demo.py line 199): the winning candidate's index. -/
def winner_index (tally : List Nat) : Except String Nat :=
  match pyMax tally with
  | .error e => .error e
  | .ok m => pyIndex tally m

/-! ### Helper lemmas about the embedded arithmetic primitives -/

theorem powModFuel_eq (fuel : Nat) : ∀ b e m : Nat, e < fuel →
    powModFuel fuel b e m = b ^ e % m := by
  induction fuel with
  | zero => intro b e m h; omega
  | succ fuel ih =>
    intro b e m h
    by_cases he : e = 0
    · subst he; simp [powModFuel]
    · have hpos : 0 < e := Nat.pos_of_ne_zero he
      have h2 : e / 2 < fuel := by
        have := Nat.div_lt_self hpos (by norm_num : 1 < 2)
        omega
      have hrec := ih (b * b % m) (e / 2) m h2
      have hbb : (b * b % m) ^ (e / 2) % m = (b * b) ^ (e / 2) % m :=
        (Nat.pow_mod (b * b) (e / 2) m).symm
      by_cases hodd : e % 2 = 1
      · have hsplit : 2 * (e / 2) + 1 = e := by omega
        simp only [powModFuel, if_neg he, if_pos hodd, hrec, hbb]
        rw [← Nat.mul_mod, ← pow_two, ← pow_mul, ← pow_succ, hsplit]
      · have hsplit : 2 * (e / 2) = e := by omega
        simp only [powModFuel, if_neg he, if_neg hodd, hrec, hbb]
        rw [← pow_two, ← pow_mul, hsplit]

theorem powMod_eq (b e m : Nat) : powMod b e m = b ^ e % m :=
  powModFuel_eq (e + 1) b e m (Nat.lt_succ_self e)

theorem egcdFuel_spec (fuel : Nat) : ∀ a b : Nat, a < fuel →
    (egcdFuel fuel a b).1 = Nat.gcd a b ∧
    (egcdFuel fuel a b).2.1 * (a : Int) + (egcdFuel fuel a b).2.2 * (b : Int) =
      ((egcdFuel fuel a b).1 : Int) := by
  induction fuel with
  | zero => intro a b h; omega
  | succ fuel ih =>
    intro a b h
    by_cases ha : a = 0
    · subst ha; simp [egcdFuel]
    · have hpos : 0 < a := Nat.pos_of_ne_zero ha
      have hlt : b % a < fuel := by
        have := Nat.mod_lt b hpos
        omega
      obtain ⟨hg, hxy⟩ := ih (b % a) a hlt
      simp only [egcdFuel, if_neg ha]
      constructor
      · exact hg.trans (Nat.gcd_rec a b).symm
      · have h1 : (↑(b % a) : Int) + ↑a * ↑(b / a) = (b : Int) := by
          exact_mod_cast Nat.mod_add_div b a
        rw [hg] at hxy ⊢
        rw [← Nat.gcd_rec a b] at hxy ⊢
        linear_combination hxy - (egcdFuel fuel (b % a) a).2.1 * h1

theorem egcd_spec (a b : Nat) :
    (egcd a b).1 = Nat.gcd a b ∧
    (egcd a b).2.1 * (a : Int) + (egcd a b).2.2 * (b : Int) = ((egcd a b).1 : Int) :=
  egcdFuel_spec (a + 1) a b (Nat.lt_succ_self a)

theorem modInv_ok {a m v : Nat} (hm : 0 < m) (h : modInv a m = .ok v) :
    a * v ≡ 1 [MOD m] ∧ v < m := by
  unfold modInv at h
  by_cases hg : Nat.gcd a m = 1
  · rw [if_neg (by simp [hg])] at h
    have hv : v = (((egcd a m).2.1 % (m : Int)).toNat) := (Except.ok.inj h).symm
    obtain ⟨hgcd, hxy⟩ := egcd_spec a m
    rw [hgcd, hg] at hxy
    push_cast at hxy
    have hm0 : (m : Int) ≠ 0 := by exact_mod_cast hm.ne'
    have hnn : 0 ≤ (egcd a m).2.1 % (m : Int) := Int.emod_nonneg _ hm0
    have hvc : (v : Int) = (egcd a m).2.1 % (m : Int) := by
      rw [hv]; exact Int.toNat_of_nonneg hnn
    constructor
    · rw [Nat.modEq_iff_dvd]
      have hed : (egcd a m).2.1 % (m : Int) + (m : Int) * ((egcd a m).2.1 / (m : Int)) =
          (egcd a m).2.1 := Int.emod_add_ediv _ _
      refine ⟨(a : Int) * ((egcd a m).2.1 / (m : Int)) + (egcd a m).2.2, ?_⟩
      push_cast
      rw [hvc]
      linear_combination (-1 : Int) * hxy - (a : Int) * hed
    · have hlt : (egcd a m).2.1 % (m : Int) < (m : Int) :=
        Int.emod_lt_of_pos _ (by exact_mod_cast hm)
      omega
  · rw [if_pos hg] at h
    cases h

theorem lcm_eq (a b : Nat) : lcm a b = Nat.lcm a b := by
  unfold lcm Nat.lcm
  rw [Nat.mul_comm a b, Nat.mul_div_assoc b (Nat.gcd_dvd_left a b), Nat.mul_comm]

theorem pow_one_add_n (n : Nat) : ∀ k : Nat, (n + 1) ^ k ≡ 1 + k * n [MOD n * n]
  | 0 => by simp [Nat.ModEq.refl]
  | k + 1 => by
    have ih := pow_one_add_n n k
    calc (n + 1) ^ (k + 1) = (n + 1) ^ k * (n + 1) := pow_succ _ _
      _ ≡ (1 + k * n) * (n + 1) [MOD n * n] := ih.mul_right _
      _ = 1 + (k + 1) * n + k * (n * n) := by ring
      _ ≡ 1 + (k + 1) * n + 0 [MOD n * n] :=
          Nat.ModEq.add_left _ (Nat.modEq_zero_iff_dvd.mpr (dvd_mul_left (n * n) k))
      _ = 1 + (k + 1) * n := by ring

theorem mod_sq_reduce (n k : Nat) (hn : 2 ≤ n) :
    (1 + k * n) % (n * n) = 1 + k % n * n := by
  have hsplit : 1 + k * n = 1 + k % n * n + k / n * (n * n) := by
    have h := Nat.mod_add_div k n
    calc 1 + k * n = 1 + (k % n + n * (k / n)) * n := by rw [h]
      _ = 1 + k % n * n + k / n * (n * n) := by ring
  rw [hsplit, Nat.add_mul_mod_self_right]
  have hk : k % n < n := Nat.mod_lt _ (by omega)
  have hb : 1 + k % n * n < n * n := by nlinarith
  exact Nat.mod_eq_of_lt hb

theorem powMod_g (n k : Nat) (hn : 2 ≤ n) :
    powMod (n + 1) k (n * n) = 1 + k % n * n := by
  rw [powMod_eq]
  have h : (n + 1) ^ k % (n * n) = (1 + k * n) % (n * n) := pow_one_add_n n k
  rw [h, mod_sq_reduce n k hn]

theorem pow_eul_prime_sq {p r e : Nat} (hp : p.Prime) (hd : p * (p - 1) ∣ e)
    (hr : Nat.Coprime r p) : r ^ e ≡ 1 [MOD p * p] := by
  obtain ⟨t, ht⟩ := hd
  have hphi : Nat.totient (p ^ 2) = p * (p - 1) := by
    rw [Nat.totient_prime_pow hp (by norm_num : 0 < 2)]
    norm_num
  have hrp : Nat.Coprime r (p ^ 2) := Nat.Coprime.pow_right 2 hr
  have he := Nat.ModEq.pow_totient hrp
  rw [hphi] at he
  have hsq : p ^ 2 = p * p := sq p
  rw [hsq] at he
  subst ht
  calc r ^ (p * (p - 1) * t) = (r ^ (p * (p - 1))) ^ t := pow_mul _ _ _
    _ ≡ 1 ^ t [MOD p * p] := he.pow t
    _ = 1 := one_pow t

theorem r_pow_unit {p q r : Nat} (hp : p.Prime) (hq : q.Prime) (hne : p ≠ q)
    (hr : Nat.Coprime r (p * q)) :
    r ^ (p * q * Nat.lcm (p - 1) (q - 1)) ≡ 1 [MOD p * q * (p * q)] := by
  set L := Nat.lcm (p - 1) (q - 1) with hL
  have hdp : p * (p - 1) ∣ p * q * L := by
    rw [Nat.mul_assoc]
    exact Nat.mul_dvd_mul_left p ((Nat.dvd_lcm_left _ _).mul_left q)
  have hdq : q * (q - 1) ∣ p * q * L := by
    rw [Nat.mul_comm p q, Nat.mul_assoc]
    exact Nat.mul_dvd_mul_left q ((Nat.dvd_lcm_right _ _).mul_left p)
  have hrp : Nat.Coprime r p := Nat.Coprime.coprime_dvd_right (dvd_mul_right p q) hr
  have hrq : Nat.Coprime r q := Nat.Coprime.coprime_dvd_right (dvd_mul_left q p) hr
  have h1 := pow_eul_prime_sq hp hdp hrp
  have h2 := pow_eul_prime_sq hq hdq hrq
  have hcop : Nat.Coprime p q := (Nat.coprime_primes hp hq).mpr hne
  have hcop22 : Nat.Coprime (p * p) (q * q) :=
    Nat.Coprime.mul (hcop.mul_right hcop) (hcop.mul_right hcop)
  have hcomb := (Nat.modEq_and_modEq_iff_modEq_mul hcop22).mp ⟨h1, h2⟩
  have heq : p * p * (q * q) = p * q * (p * q) := by ring
  rwa [heq] at hcomb

/-- The heart of Paillier correctness for this code: decrypting any number
congruent to `(n+1)^m * r^n` modulo `n^2` (with `n = p*q` a product of two
distinct primes, `r` coprime to `n` and `mu` an inverse of lambda mod `n`)
recovers `m % n`. -/
theorem decrypt_core {p q : Nat} (hp : p.Prime) (hq : q.Prime) (hne : p ≠ q)
    (m r mu c : Nat) (hr : Nat.Coprime r (p * q))
    (hmu : lcm (p - 1) (q - 1) * mu ≡ 1 [MOD p * q])
    (hc : c ≡ (p * q + 1) ^ m * r ^ (p * q) [MOD p * q * (p * q)]) :
    paillier_decrypt (mkPublicKey (p * q) (p * q + 1)) ⟨lcm (p - 1) (q - 1), mu⟩ c
      = m % (p * q) := by
  have hn2 : 2 ≤ p * q := by
    have h4 : 2 * 2 ≤ p * q := Nat.mul_le_mul hp.two_le hq.two_le
    omega
  set n := p * q with hn
  set L := lcm (p - 1) (q - 1) with hLdef
  have hLlcm : L = Nat.lcm (p - 1) (q - 1) := lcm_eq _ _
  unfold paillier_decrypt mkPublicKey
  simp only
  rw [powMod_eq]
  have hclam : c ^ L ≡ 1 + m * L % n * n [MOD n * n] := by
    calc c ^ L ≡ ((n + 1) ^ m * r ^ n) ^ L [MOD n * n] := hc.pow L
      _ = (n + 1) ^ (m * L) * r ^ (n * L) := by
          rw [mul_pow, ← pow_mul, ← pow_mul]
      _ ≡ (1 + m * L * n) * 1 [MOD n * n] := by
          have hg := pow_one_add_n n (m * L)
          have hu : r ^ (n * L) ≡ 1 [MOD n * n] := by
            rw [hLlcm]
            exact r_pow_unit hp hq hne hr
          exact hg.mul hu
      _ = 1 + m * L * n := by ring
      _ ≡ 1 + m * L % n * n [MOD n * n] := by
          have h1 : (1 + m * L * n) % (n * n) = 1 + m * L % n * n :=
            mod_sq_reduce n (m * L) hn2
          have h2 : (1 + m * L % n * n) % (n * n) = 1 + m * L % n * n := by
            have hk : m * L % n < n := Nat.mod_lt _ (by omega)
            exact Nat.mod_eq_of_lt (by nlinarith)
          unfold Nat.ModEq
          rw [h1, h2]
  have hx : c ^ L % (n * n) = 1 + m * L % n * n := by
    have h2 : (1 + m * L % n * n) % (n * n) = 1 + m * L % n * n := by
      have hk : m * L % n < n := Nat.mod_lt _ (by omega)
      exact Nat.mod_eq_of_lt (by nlinarith)
    calc c ^ L % (n * n) = (1 + m * L % n * n) % (n * n) := hclam
      _ = 1 + m * L % n * n := h2
  rw [hx]
  have hlval : (1 + m * L % n * n - 1) / n = m * L % n := by
    rw [Nat.add_sub_cancel_left]
    exact Nat.mul_div_cancel _ (by omega)
  rw [hlval]
  have hmod1 : (L * mu) % n = 1 := by
    have h1n : 1 % n = 1 := Nat.mod_eq_of_lt (by omega)
    have := hmu
    unfold Nat.ModEq at this
    rw [h1n] at this
    exact this
  have hmm : ∀ a b : Nat, a % n * b % n = a * b % n := fun a b => by
    conv_lhs => rw [Nat.mul_mod]
    conv_rhs => rw [Nat.mul_mod]
    rw [Nat.mod_mod_of_dvd _ (dvd_refl n)]
  calc m * L % n * mu % n = m * L * mu % n := hmm _ _
    _ = m * (L * mu) % n := by rw [Nat.mul_assoc]
    _ = m % n * (L * mu % n) % n := Nat.mul_mod _ _ _
    _ = m % n * 1 % n := by rw [hmod1]
    _ = m % n := by rw [Nat.mul_one, Nat.mod_mod_of_dvd _ (dvd_refl n)]

/-! ### Facts about the prime pool and key generation -/

theorem pool_prime : ∀ x ∈ small_primes, Nat.Prime x := by decide

theorem pool_filter_len :
    ∀ x ∈ small_primes, (small_primes.filter (fun y => y ≠ x)).length = 9 := by decide

theorem pDraw_mem (ip : Nat) : pDraw ip ∈ small_primes := by
  have h : ip % small_primes.length < small_primes.length :=
    Nat.mod_lt _ (by decide)
  rw [pDraw, List.getD_eq_getElem _ _ h]
  exact List.getElem_mem h

theorem qDraw_mem (ip iq : Nat) :
    qDraw ip iq ∈ small_primes.filter (fun y => y ≠ pDraw ip) := by
  have hl : (small_primes.filter (fun y => y ≠ pDraw ip)).length = 9 :=
    pool_filter_len _ (pDraw_mem ip)
  have h : iq % (small_primes.filter (fun y => y ≠ pDraw ip)).length <
      (small_primes.filter (fun y => y ≠ pDraw ip)).length :=
    Nat.mod_lt _ (by omega)
  rw [qDraw, List.getD_eq_getElem _ _ h]
  exact List.getElem_mem h

theorem qDraw_facts (ip iq : Nat) :
    qDraw ip iq ∈ small_primes ∧ qDraw ip iq ≠ pDraw ip := by
  have h := qDraw_mem ip iq
  rw [List.mem_filter] at h
  exact ⟨h.1, by simpa using h.2⟩

theorem pool_ok : ∀ p ∈ small_primes, ∀ q ∈ small_primes.filter (fun y => y ≠ p),
    (paillierFrom p q).isOk = true := by decide

/-- What a successful run of the key-generation body returns: the public key
built from `n = p*q` and `g = n+1`, the private exponent `lcm(p-1, q-1)`, and
a `mu` that really is a modular inverse of lambda mod `n`. -/
theorem paillierFrom_ok {p q : Nat} (h2 : 2 ≤ p * q)
    {kp : PaillierPublicKey × PaillierPrivateKey} (hk : paillierFrom p q = .ok kp) :
    kp.1 = mkPublicKey (p * q) (p * q + 1) ∧
    kp.2.lambda_ = lcm (p - 1) (q - 1) ∧
    kp.2.lambda_ * kp.2.mu ≡ 1 [MOD p * q] := by
  unfold paillierFrom at hk
  simp only [powMod_g (p * q) (lcm (p - 1) (q - 1)) h2] at hk
  rw [show 1 + lcm (p - 1) (q - 1) % (p * q) * (p * q) - 1 =
      lcm (p - 1) (q - 1) % (p * q) * (p * q) from by omega,
    Nat.mul_div_cancel _ (by omega : 0 < p * q)] at hk
  cases hmod : modInv (lcm (p - 1) (q - 1) % (p * q)) (p * q) with
  | error e => rw [hmod] at hk; cases hk
  | ok mu =>
    rw [hmod] at hk
    have hkp := (Except.ok.inj hk).symm
    obtain ⟨hmodeq, _⟩ := modInv_ok (by omega : 0 < p * q) hmod
    have hlmu : lcm (p - 1) (q - 1) * mu ≡ 1 [MOD p * q] :=
      (((Nat.mod_modEq (lcm (p - 1) (q - 1)) (p * q)).symm.mul_right mu).trans hmodeq)
    rw [hkp]
    exact ⟨rfl, rfl, hlmu⟩

theorem draws_prime (ip iq : Nat) :
    (pDraw ip).Prime ∧ (qDraw ip iq).Prime ∧ pDraw ip ≠ qDraw ip iq := by
  refine ⟨pool_prime _ (pDraw_mem ip), pool_prime _ (qDraw_facts ip iq).1, ?_⟩
  exact fun h => (qDraw_facts ip iq).2 h.symm

/-- Round-trip core shared by several claims: for a generated keypair,
encrypting a valid `Nat` plaintext with any coprime randomizer and then
decrypting gives back the plaintext. -/
theorem roundtrip_helper {bits ip iq : Nat} {kp : PaillierPublicKey × PaillierPrivateKey}
    (hk : generatePaillierKey bits ip iq = .ok kp)
    (m' r : Nat) (hm : m' < kp.1.n) (hrcop : Nat.gcd r kp.1.n = 1) :
    Except.map (paillier_decrypt kp.1 kp.2) (paillier_encrypt kp.1 (m' : Int) r)
      = .ok m' := by
  obtain ⟨hp, hq, hne⟩ := draws_prime ip iq
  set p := pDraw ip
  set q := qDraw ip iq
  have h2 : 2 ≤ p * q := by
    have h4 : 2 * 2 ≤ p * q := Nat.mul_le_mul hp.two_le hq.two_le
    omega
  obtain ⟨hpub, hlam, hmu⟩ := paillierFrom_ok h2 hk
  have hpriv : kp.2 = (⟨lcm (p - 1) (q - 1), kp.2.mu⟩ : PaillierPrivateKey) := by
    rw [← hlam]
  rw [hpub] at hm hrcop ⊢
  simp only [mkPublicKey] at hm hrcop
  rw [hlam] at hmu
  rw [paillier_encrypt, if_neg (not_not_intro ⟨Int.natCast_nonneg m', by
    simp only [mkPublicKey]
    exact_mod_cast hm⟩)]
  simp only [Except.map, mkPublicKey, powMod_eq, Int.toNat_natCast]
  have hcc : (p * q + 1) ^ m' % (p * q * (p * q)) * (r ^ (p * q) % (p * q * (p * q)))
        % (p * q * (p * q))
      ≡ (p * q + 1) ^ m' * r ^ (p * q) [MOD p * q * (p * q)] := by
    unfold Nat.ModEq
    rw [Nat.mod_mod_of_dvd _ (dvd_refl _), ← Nat.mul_mod]
  refine congrArg Except.ok ?_
  rw [hpriv]
  have hd := decrypt_core hp hq hne m' r kp.2.mu _ hrcop hmu hcc
  exact hd.trans (Nat.mod_eq_of_lt hm)

/-! ### The claims -/

/-- Claim C1: round-trip correctness. For every keypair produced by
`generatePaillierKey` (for any random draws), every plaintext `0 ≤ m < n`
and every randomizer `1 ≤ r < n` coprime to `n`, decrypting the encryption
of `m` returns exactly `m`, independently of `r`. -/
theorem claim_C1 (bits ip iq : Nat) (kp : PaillierPublicKey × PaillierPrivateKey)
    (hk : generatePaillierKey bits ip iq = .ok kp)
    (m : Int) (hm0 : 0 ≤ m) (hmn : m < (kp.1.n : Int))
    (r : Nat) (hr1 : 1 ≤ r) (hrn : r < kp.1.n) (hrcop : Nat.gcd r kp.1.n = 1)
    (c : Nat) (hc : paillier_encrypt kp.1 m r = .ok c) :
    (paillier_decrypt kp.1 kp.2 c : Int) = m := by
  have hmnat : m = ((m.toNat : Nat) : Int) := (Int.toNat_of_nonneg hm0).symm
  rw [hmnat] at hc
  have h := roundtrip_helper hk m.toNat r (by omega) hrcop
  rw [hc] at h
  simp only [Except.map] at h
  rw [Except.ok.inj h, ← hmnat]

/-- Witness for C1 at the concrete key drawn from primes 101 and 103,
plaintext 7 and randomizer 5. -/
theorem claim_C1_witness :
    (paillier_decrypt ⟨10403, 10404, 108222409⟩ ⟨5100, 3331⟩ 27472428 : Int) = 7 :=
  claim_C1 512 0 0 (⟨10403, 10404, 108222409⟩, ⟨5100, 3331⟩) rfl
    7 (by norm_num) (by norm_num) 5 (by norm_num) (by norm_num) (by norm_num)
    27472428 rfl

/-- Claim C2: additive homomorphism. Multiplying the encryptions of `a`
and `b` with `homomorphic_add` and decrypting yields `(a + b) mod n`. -/
theorem claim_C2 (bits ip iq : Nat) (kp : PaillierPublicKey × PaillierPrivateKey)
    (hk : generatePaillierKey bits ip iq = .ok kp)
    (a b : Int) (ha0 : 0 ≤ a) (han : a < (kp.1.n : Int))
    (hb0 : 0 ≤ b) (hbn : b < (kp.1.n : Int))
    (r1 r2 : Nat) (hr1 : Nat.gcd r1 kp.1.n = 1) (hr2 : Nat.gcd r2 kp.1.n = 1)
    (c1 c2 : Nat) (hc1 : paillier_encrypt kp.1 a r1 = .ok c1)
    (hc2 : paillier_encrypt kp.1 b r2 = .ok c2) :
    (paillier_decrypt kp.1 kp.2 (homomorphic_add kp.1 c1 c2) : Int)
      = (a + b) % (kp.1.n : Int) := by
  obtain ⟨hp, hq, hne⟩ := draws_prime ip iq
  set p := pDraw ip
  set q := qDraw ip iq
  have h2 : 2 ≤ p * q := by
    have h4 : 2 * 2 ≤ p * q := Nat.mul_le_mul hp.two_le hq.two_le
    omega
  obtain ⟨hpub, hlam, hmu⟩ := paillierFrom_ok h2 hk
  have hpriv : kp.2 = (⟨lcm (p - 1) (q - 1), kp.2.mu⟩ : PaillierPrivateKey) := by
    rw [← hlam]
  rw [hpub] at han hbn hr1 hr2 hc1 hc2 ⊢
  simp only [mkPublicKey] at han hbn hr1 hr2
  rw [hlam] at hmu
  rw [paillier_encrypt, if_neg (not_not_intro ⟨ha0, by
    simp only [mkPublicKey]; exact_mod_cast han⟩)] at hc1
  rw [paillier_encrypt, if_neg (not_not_intro ⟨hb0, by
    simp only [mkPublicKey]; exact_mod_cast hbn⟩)] at hc2
  have hv1 := Except.ok.inj hc1
  have hv2 := Except.ok.inj hc2
  simp only [mkPublicKey, powMod_eq] at hv1 hv2
  have hcc1 : c1 ≡ (p * q + 1) ^ a.toNat * r1 ^ (p * q) [MOD p * q * (p * q)] := by
    unfold Nat.ModEq
    rw [← hv1, Nat.mod_mod_of_dvd _ (dvd_refl _), ← Nat.mul_mod]
  have hcc2 : c2 ≡ (p * q + 1) ^ b.toNat * r2 ^ (p * q) [MOD p * q * (p * q)] := by
    unfold Nat.ModEq
    rw [← hv2, Nat.mod_mod_of_dvd _ (dvd_refl _), ← Nat.mul_mod]
  have hsum : c1 * c2 ≡ (p * q + 1) ^ (a.toNat + b.toNat) * (r1 * r2) ^ (p * q)
      [MOD p * q * (p * q)] := by
    have h := hcc1.mul hcc2
    calc c1 * c2
        ≡ (p * q + 1) ^ a.toNat * r1 ^ (p * q) * ((p * q + 1) ^ b.toNat * r2 ^ (p * q))
          [MOD p * q * (p * q)] := h
      _ = (p * q + 1) ^ (a.toNat + b.toNat) * (r1 * r2) ^ (p * q) := by
          rw [pow_add, mul_pow]; ring
  have hadd : homomorphic_add (mkPublicKey (p * q) (p * q + 1)) c1 c2
      ≡ (p * q + 1) ^ (a.toNat + b.toNat) * (r1 * r2) ^ (p * q)
      [MOD p * q * (p * q)] := by
    have hmm : homomorphic_add (mkPublicKey (p * q) (p * q + 1)) c1 c2
        = c1 * c2 % (p * q * (p * q)) := by
      simp [homomorphic_add, mkPublicKey]
    rw [hmm]
    exact (Nat.mod_modEq _ _).trans hsum
  have hrcop : Nat.Coprime (r1 * r2) (p * q) := Nat.Coprime.mul hr1 hr2
  rw [hpriv]
  rw [decrypt_core hp hq hne (a.toNat + b.toNat) (r1 * r2) kp.2.mu _ hrcop hmu hadd]
  simp only [mkPublicKey]
  have hcast : ((a.toNat + b.toNat : Nat) : Int) = a + b := by
    push_cast [Int.toNat_of_nonneg ha0, Int.toNat_of_nonneg hb0]
    ring
  rw [← hcast]
  exact Int.natCast_mod _ _

/-- Witness for C2: 3 and 4 encrypted under the key drawn from 101 and 103
with randomizers 5 and 7; the homomorphic sum decrypts to (3+4) mod n. -/
theorem claim_C2_witness :
    (paillier_decrypt ⟨10403, 10404, 108222409⟩ ⟨5100, 3331⟩
      (homomorphic_add ⟨10403, 10404, 108222409⟩ 106327168 49293696) : Int)
      = (3 + 4) % (10403 : Int) :=
  claim_C2 512 0 0 (⟨10403, 10404, 108222409⟩, ⟨5100, 3331⟩) rfl
    3 4 (by norm_num) (by norm_num) (by norm_num) (by norm_num)
    5 7 (by norm_num) (by norm_num) 106327168 49293696 rfl rfl

theorem foldl_mod_eq (m : Nat) : ∀ (cs : List Nat) (a : Nat),
    cs.foldl (fun result c => result * c % m) (a % m) = a * cs.prod % m := by
  intro cs
  induction cs with
  | nil => intro a; simp
  | cons c cs ih =>
    intro a
    have hstep : (a % m) * c % m = (a * c) % m := by
      conv_lhs => rw [Nat.mul_mod]
      conv_rhs => rw [Nat.mul_mod]
      rw [Nat.mod_mod_of_dvd _ (dvd_refl m)]
    calc (c :: cs).foldl (fun result c => result * c % m) (a % m)
        = cs.foldl (fun result c => result * c % m) ((a % m) * c % m) := rfl
      _ = cs.foldl (fun result c => result * c % m) ((a * c) % m) := by rw [hstep]
      _ = a * c * cs.prod % m := ih (a * c)
      _ = a * (c :: cs).prod % m := by rw [List.prod_cons, Nat.mul_assoc]

theorem addMany_nonempty (pub : PaillierPublicKey) (c : Nat) (cs : List Nat) :
    homomorphic_add_many pub (c :: cs) = (c :: cs).prod % pub.n_sq := by
  unfold homomorphic_add_many
  simp only [List.isEmpty_cons, Bool.false_eq_true, if_false]
  have h1 : (1 : Nat) * c % pub.n_sq = (1 * c) % pub.n_sq := rfl
  calc (c :: cs).foldl (fun result c => result * c % pub.n_sq) 1
      = cs.foldl (fun result c => result * c % pub.n_sq) (1 * c % pub.n_sq) := rfl
    _ = (1 * c) * cs.prod % pub.n_sq := by
        rw [show (1 : Nat) * c % pub.n_sq = (1 * c) % pub.n_sq from rfl]
        exact foldl_mod_eq pub.n_sq cs (1 * c)
    _ = (c :: cs).prod % pub.n_sq := by rw [List.prod_cons, Nat.one_mul]

/-- Claim C3: fold consistency. `homomorphic_add_many` returns the same
ciphertext on any permutation of its input list. -/
theorem claim_C3 (pub : PaillierPublicKey) (cs1 cs2 : List Nat) (h : cs1.Perm cs2) :
    homomorphic_add_many pub cs1 = homomorphic_add_many pub cs2 := by
  cases cs1 with
  | nil =>
    have h2 : cs2 = [] := h.symm.eq_nil
    rw [h2]
  | cons c cs =>
    cases cs2 with
    | nil => exact absurd h.eq_nil (by simp)
    | cons d ds => rw [addMany_nonempty, addMany_nonempty, h.prod_eq]

/-- Witness for C3: swapping a two-element ciphertext list leaves the
aggregate unchanged. -/
theorem claim_C3_witness :
    homomorphic_add_many (mkPublicKey 10403 10404) [3, 2]
      = homomorphic_add_many (mkPublicKey 10403 10404) [2, 3] :=
  claim_C3 (mkPublicKey 10403 10404) [3, 2] [2, 3] (List.Perm.swap 2 3 [])

/-- Claim C4: the encrypt range check. Encryption fails exactly when the
plaintext lies outside `[0, n)`; the boundary plaintexts `0` and `n-1`
succeed and round-trip through decryption, while `n` itself is rejected. -/
theorem claim_C4 (bits ip iq : Nat) (kp : PaillierPublicKey × PaillierPrivateKey)
    (hk : generatePaillierKey bits ip iq = .ok kp)
    (r : Nat) (hrcop : Nat.gcd r kp.1.n = 1) (m : Int) :
    ((paillier_encrypt kp.1 m r).isOk = true ↔ (0 ≤ m ∧ m < (kp.1.n : Int)))
    ∧ Except.map (paillier_decrypt kp.1 kp.2) (paillier_encrypt kp.1 0 r) = .ok 0
    ∧ Except.map (paillier_decrypt kp.1 kp.2)
        (paillier_encrypt kp.1 ((kp.1.n : Int) - 1) r) = .ok (kp.1.n - 1)
    ∧ (paillier_encrypt kp.1 (kp.1.n : Int) r).isOk = false := by
  obtain ⟨hp, hq, hne⟩ := draws_prime ip iq
  have h2 : 2 ≤ pDraw ip * qDraw ip iq := by
    have h4 : 2 * 2 ≤ pDraw ip * qDraw ip iq := Nat.mul_le_mul hp.two_le hq.two_le
    omega
  obtain ⟨hpub, _, _⟩ := paillierFrom_ok h2 hk
  have hn2 : 2 ≤ kp.1.n := by rw [hpub]; exact h2
  refine ⟨?_, ?_, ?_, ?_⟩
  · by_cases hcond : (0 ≤ m ∧ m < (kp.1.n : Int))
    · rw [paillier_encrypt, if_neg (not_not_intro hcond)]
      exact iff_of_true rfl hcond
    · rw [paillier_encrypt, if_pos hcond]
      exact iff_of_false (by simp [Except.isOk, Except.toBool]) hcond
  · have h := roundtrip_helper hk 0 r (by omega) hrcop
    simpa using h
  · have h := roundtrip_helper hk (kp.1.n - 1) r (by omega) hrcop
    have hcast : ((kp.1.n - 1 : Nat) : Int) = (kp.1.n : Int) - 1 := by omega
    rw [hcast] at h
    exact h
  · rw [paillier_encrypt, if_pos (by simp)]
    rfl

/-- Witness for C4 at the key drawn from 101 and 103 with randomizer 5 and
the out-of-range plaintext -3. -/
theorem claim_C4_witness :
    ((paillier_encrypt ⟨10403, 10404, 108222409⟩ (-3) 5).isOk = true ↔
      (0 ≤ (-3 : Int) ∧ (-3 : Int) < ((10403 : Nat) : Int)))
    ∧ Except.map (paillier_decrypt ⟨10403, 10404, 108222409⟩ ⟨5100, 3331⟩)
        (paillier_encrypt ⟨10403, 10404, 108222409⟩ 0 5) = .ok 0
    ∧ Except.map (paillier_decrypt ⟨10403, 10404, 108222409⟩ ⟨5100, 3331⟩)
        (paillier_encrypt ⟨10403, 10404, 108222409⟩ (((10403 : Nat) : Int) - 1) 5)
        = .ok (10403 - 1)
    ∧ (paillier_encrypt ⟨10403, 10404, 108222409⟩ ((10403 : Nat) : Int) 5).isOk = false :=
  claim_C4 512 0 0 (⟨10403, 10404, 108222409⟩, ⟨5100, 3331⟩) rfl 5 (by decide) (-3)

/-- Claim C5: key generation never fails for the fixed pool. The two drawn
primes are distinct by construction and the modular-inverse step always
succeeds, so no error is ever propagated (the spec's retry clause is
vacuous: the failure it guards against cannot occur). -/
theorem claim_C5 (bits ip iq : Nat) :
    (generatePaillierKey bits ip iq).isOk = true ∧ qDraw ip iq ≠ pDraw ip :=
  ⟨pool_ok _ (pDraw_mem ip) _ (qDraw_mem ip iq), (qDraw_facts ip iq).2⟩

/-- Counterexample for C6: `add_vectors` on vectors of lengths 2 and 1 does
not fail; it silently truncates to the shorter length (zip semantics). -/
theorem claim_C6_counterexample :
    add_vectors [1, 2] [3] (mkPublicKey 10403 10404) = [3] ∧
    (add_vectors [1, 2] [3] (mkPublicKey 10403 10404)).length = 1 :=
  ⟨rfl, rfl⟩

/-- Claim C6 (amended): `add_vectors` never raises on a length mismatch;
it returns the elementwise `homomorphic_add` of the common prefix, of
length `min (len a) (len b)`. -/
theorem claim_C6 (a b : List Nat) (pub : PaillierPublicKey) (i : Nat)
    (hi : i < min a.length b.length) :
    (add_vectors a b pub).length = min a.length b.length ∧
    (add_vectors a b pub).getD i 0 = homomorphic_add pub (a.getD i 0) (b.getD i 0) := by
  have hlen : (add_vectors a b pub).length = min a.length b.length := by
    simp [add_vectors]
  refine ⟨hlen, ?_⟩
  have hi' : i < (add_vectors a b pub).length := by omega
  have hia : i < a.length := by omega
  have hib : i < b.length := by omega
  rw [List.getD_eq_getElem _ _ hi', List.getD_eq_getElem _ _ hia,
    List.getD_eq_getElem _ _ hib]
  simp [add_vectors]

/-- Witness for C6 at equal-length vectors. -/
theorem claim_C6_witness :
    (add_vectors [1, 2] [3, 4] (mkPublicKey 10403 10404)).length
      = min (List.length [1, 2]) (List.length [3, 4]) ∧
    (add_vectors [1, 2] [3, 4] (mkPublicKey 10403 10404)).getD 1 0
      = homomorphic_add (mkPublicKey 10403 10404) (List.getD [1, 2] 1 0)
          (List.getD [3, 4] 1 0) :=
  claim_C6 [1, 2] [3, 4] (mkPublicKey 10403 10404) 1 (by simp)

/-- Counterexample for C7: index -1 is outside `[0, 4)` yet `encode_vote`
does not fail; Python's negative indexing wraps and sets the last entry. -/
theorem claim_C7_counterexample :
    ¬ (0 ≤ (-1 : Int) ∧ (-1 : Int) < 4) ∧ encode_vote (-1) 4 = .ok [0, 0, 0, 1] :=
  ⟨by norm_num, rfl⟩

/-- Claim C7 (amended): `encode_vote(index, k)` returns the length-k one-hot
vector with the 1 at `index` when `0 ≤ index < k`, wraps a negative index
`-k ≤ index < 0` to position `k + index`, and raises IndexError (not a
range check of its own) only when `index < -k` or `index ≥ k`. -/
theorem claim_C7 (index : Int) (k j : Nat) :
    (0 ≤ index → index < (k : Int) →
      encode_vote index k = .ok ((List.replicate k 0).set index.toNat 1))
    ∧ (-(k : Int) ≤ index → index < 0 →
      encode_vote index k = .ok ((List.replicate k 0).set (index + k).toNat 1))
    ∧ (index < -(k : Int) ∨ (k : Int) ≤ index → (encode_vote index k).isOk = false)
    ∧ (0 ≤ index → index < (k : Int) → j < k →
      ((List.replicate k 0).set index.toNat 1).getD j 0
        = if (j : Int) = index then 1 else 0) := by
  refine ⟨?_, ?_, ?_, ?_⟩
  · intro h0 hk
    rw [encode_vote, pyListSet,
      if_pos (by simp only [List.length_replicate]; exact ⟨h0, hk⟩)]
  · intro h1 h2
    rw [encode_vote, pyListSet,
      if_neg (by simp only [List.length_replicate]; omega),
      if_pos (by simp only [List.length_replicate]; exact ⟨h1, h2⟩)]
    rw [List.length_replicate]
  · intro h
    rw [encode_vote, pyListSet,
      if_neg (by simp only [List.length_replicate]; omega),
      if_neg (by simp only [List.length_replicate]; omega)]
    rfl
  · intro h0 hk hj
    have hlen : j < ((List.replicate k 0).set index.toNat 1).length := by
      simp only [List.length_set, List.length_replicate]; omega
    rw [List.getD_eq_getElem _ _ hlen]
    rw [List.getElem_set]
    by_cases hij : index.toNat = j
    · rw [if_pos hij, if_pos (by omega)]
    · rw [if_neg hij, if_neg (by omega)]
      simp

/-- Witness for C7: a valid index 2 of 4 candidates, the one-hot property
at position 2, and failure at the out-of-range index 9. -/
theorem claim_C7_witness :
    encode_vote 2 4 = .ok ((List.replicate 4 0).set (2 : Int).toNat 1) ∧
    ((List.replicate 4 0).set (2 : Int).toNat 1).getD 2 0
      = (if ((2 : Nat) : Int) = 2 then 1 else 0) ∧
    (encode_vote 9 4).isOk = false :=
  ⟨(claim_C7 2 4 2).1 (by norm_num) (by norm_num),
   (claim_C7 2 4 2).2.2.2 (by norm_num) (by norm_num) (by norm_num),
   (claim_C7 9 4 0).2.2.1 (by norm_num)⟩

/-- Claim C8: the empty aggregation. `homomorphic_add_many pub []` is the
constant 1, which is exactly the canonical encryption of 0 with r = 1, and
it decrypts to 0 under the matching private key. -/
theorem claim_C8 (bits ip iq : Nat) (kp : PaillierPublicKey × PaillierPrivateKey)
    (hk : generatePaillierKey bits ip iq = .ok kp) :
    homomorphic_add_many kp.1 [] = 1 ∧
    paillier_encrypt kp.1 0 1 = .ok (homomorphic_add_many kp.1 []) ∧
    paillier_decrypt kp.1 kp.2 (homomorphic_add_many kp.1 []) = 0 := by
  obtain ⟨hp, hq, hne⟩ := draws_prime ip iq
  have h2 : 2 ≤ pDraw ip * qDraw ip iq := by
    have h4 : 2 * 2 ≤ pDraw ip * qDraw ip iq := Nat.mul_le_mul hp.two_le hq.two_le
    omega
  obtain ⟨hpub, _, _⟩ := paillierFrom_ok h2 hk
  set n := pDraw ip * qDraw ip iq with hn
  have hN : 1 < n * n := by nlinarith
  have hone : homomorphic_add_many kp.1 [] = 1 := by
    rw [hpub]
    simp [homomorphic_add_many, mkPublicKey, powMod_eq, Nat.mod_eq_of_lt hN]
  refine ⟨hone, ?_, ?_⟩
  · rw [hone, hpub, paillier_encrypt, if_neg (not_not_intro ⟨le_refl 0, by
      simp only [mkPublicKey]
      exact_mod_cast (by omega : 0 < n)⟩)]
    simp [mkPublicKey, powMod_eq, Nat.mod_eq_of_lt hN]
  · rw [hone, hpub]
    simp [paillier_decrypt, mkPublicKey, powMod_eq, Nat.mod_eq_of_lt hN]

/-- Witness for C8 at the key drawn from 101 and 103. -/
theorem claim_C8_witness :
    homomorphic_add_many (⟨10403, 10404, 108222409⟩ : PaillierPublicKey) [] = 1 ∧
    paillier_encrypt ⟨10403, 10404, 108222409⟩ 0 1
      = .ok (homomorphic_add_many (⟨10403, 10404, 108222409⟩ : PaillierPublicKey) []) ∧
    paillier_decrypt ⟨10403, 10404, 108222409⟩ ⟨5100, 3331⟩
      (homomorphic_add_many (⟨10403, 10404, 108222409⟩ : PaillierPublicKey) []) = 0 :=
  claim_C8 512 0 0 (⟨10403, 10404, 108222409⟩, ⟨5100, 3331⟩) rfl

theorem foldl_max_le : ∀ (t : List Nat) (a : Nat),
    a ≤ t.foldl Nat.max a ∧ ∀ x ∈ t, x ≤ t.foldl Nat.max a := by
  intro t
  induction t with
  | nil => intro a; exact ⟨Nat.le_refl a, by simp⟩
  | cons y t ih =>
    intro a
    obtain ⟨h1, h2⟩ := ih (Nat.max a y)
    refine ⟨Nat.le_trans (Nat.le_max_left a y) h1, ?_⟩
    intro x hx
    rcases List.mem_cons.mp hx with hx | hx
    · subst hx; exact Nat.le_trans (Nat.le_max_right a x) h1
    · exact h2 x hx

theorem pyIndex_spec : ∀ (l : List Nat) (x i : Nat), pyIndex l x = .ok i →
    i < l.length ∧ l.getD i 0 = x ∧ ∀ j, j < i → l.getD j 0 ≠ x := by
  intro l
  induction l with
  | nil => intro x i h; cases h
  | cons y t ih =>
    intro x i h
    by_cases hyx : y = x
    · rw [pyIndex, if_pos hyx] at h
      have hi : i = 0 := (Except.ok.inj h).symm
      subst hi
      exact ⟨by simp, by simpa using hyx, by omega⟩
    · rw [pyIndex, if_neg hyx] at h
      cases ht : pyIndex t x with
      | error e => rw [ht] at h; simp [Except.map] at h
      | ok i' =>
        rw [ht] at h
        simp only [Except.map] at h
        have hi : i = i' + 1 := (Except.ok.inj h).symm
        subst hi
        obtain ⟨hl, hg, hj⟩ := ih x i' ht
        refine ⟨by simp; omega, by simpa using hg, ?_⟩
        intro j hj'
        cases j with
        | zero => simpa using hyx
        | succ j' => simpa using hj j' (by omega)

/-- Claim C9: winner selection. The index returned by
`tally.index(max(tally))` points at a maximal tally entry, and every
earlier index holds a strictly smaller tally, so ties are broken by the
lowest index; in particular [2,2] and [2,1,2,1] both give winner 0. -/
theorem claim_C9 (tally : List Nat) (i j : Nat) (hne : tally ≠ [])
    (hw : winner_index tally = .ok i) :
    i < tally.length ∧
    pyMax tally = .ok (tally.getD i 0) ∧
    (j < tally.length → tally.getD j 0 ≤ tally.getD i 0) ∧
    (j < i → tally.getD j 0 < tally.getD i 0) ∧
    winner_index [2, 2] = .ok 0 ∧ winner_index [2, 1, 2, 1] = .ok 0 := by
  cases tally with
  | nil => exact absurd rfl hne
  | cons y t =>
    have hw' : pyIndex (y :: t) (t.foldl Nat.max y) = .ok i := hw
    obtain ⟨hl, hg, hj⟩ := pyIndex_spec (y :: t) (t.foldl Nat.max y) i hw'
    obtain ⟨hy, ht⟩ := foldl_max_le t y
    have hub : ∀ j', j' < (y :: t).length →
        (y :: t).getD j' 0 ≤ t.foldl Nat.max y := by
      intro j' hj'
      cases j' with
      | zero => simpa using hy
      | succ j'' =>
        have hj''t : j'' < t.length := by simpa using hj'
        have hmem : t.getD j'' 0 ∈ t := by
          rw [List.getD_eq_getElem _ _ hj''t]
          exact List.getElem_mem hj''t
        simpa using ht _ hmem
    refine ⟨hl, ?_, ?_, ?_, rfl, rfl⟩
    · rw [hg]; rfl
    · intro hjl
      rw [hg]
      exact hub j hjl
    · intro hji
      have hle := hub j (by omega)
      have hne' := hj j hji
      rw [hg]
      omega

/-- Witness for C9 at the spec's own tie-break example [2,1,2,1]. -/
theorem claim_C9_witness :
    0 < List.length [2, 1, 2, 1] ∧
    pyMax [2, 1, 2, 1] = .ok (List.getD [2, 1, 2, 1] 0 0) ∧
    (2 < List.length [2, 1, 2, 1] →
      List.getD [2, 1, 2, 1] 2 0 ≤ List.getD [2, 1, 2, 1] 0 0) ∧
    (2 < 0 → List.getD [2, 1, 2, 1] 2 0 < List.getD [2, 1, 2, 1] 0 0) ∧
    winner_index [2, 2] = .ok 0 ∧ winner_index [2, 1, 2, 1] = .ok 0 :=
  claim_C9 [2, 1, 2, 1] 0 2 (by simp) rfl

/-- Claim C10: the implicit key-pool invariant. `generatePaillierKey`
ignores `bits` entirely; `p` is drawn from the fixed ten-element pool and
`q` from the same pool with `q ≠ p` by construction, and every returned
public key satisfies `n = p*q`, `g = n + 1` and `n_sq = n * n`. -/
theorem claim_C10 (bits bits2 ip iq : Nat) (kp : PaillierPublicKey × PaillierPrivateKey)
    (hk : generatePaillierKey bits ip iq = .ok kp) :
    generatePaillierKey bits ip iq = generatePaillierKey bits2 ip iq ∧
    pDraw ip ∈ small_primes ∧ qDraw ip iq ∈ small_primes ∧ qDraw ip iq ≠ pDraw ip ∧
    kp.1.n = pDraw ip * qDraw ip iq ∧ kp.1.g = kp.1.n + 1 ∧
    kp.1.n_sq = kp.1.n * kp.1.n := by
  obtain ⟨hp, hq, hne⟩ := draws_prime ip iq
  have h2 : 2 ≤ pDraw ip * qDraw ip iq := by
    have h4 : 2 * 2 ≤ pDraw ip * qDraw ip iq := Nat.mul_le_mul hp.two_le hq.two_le
    omega
  obtain ⟨hpub, _, _⟩ := paillierFrom_ok h2 hk
  refine ⟨rfl, pDraw_mem ip, (qDraw_facts ip iq).1, (qDraw_facts ip iq).2, ?_, ?_, ?_⟩
  · rw [hpub]; simp [mkPublicKey]
  · rw [hpub]; simp [mkPublicKey]
  · rw [hpub]; simp [mkPublicKey]

/-- Witness for C10 with two different bit sizes and the draw (101, 103). -/
theorem claim_C10_witness :
    generatePaillierKey 512 0 0 = generatePaillierKey 1024 0 0 ∧
    pDraw 0 ∈ small_primes ∧ qDraw 0 0 ∈ small_primes ∧ qDraw 0 0 ≠ pDraw 0 ∧
    (10403 : Nat) = pDraw 0 * qDraw 0 0 ∧ (10404 : Nat) = 10403 + 1 ∧
    (108222409 : Nat) = 10403 * 10403 :=
  claim_C10 512 1024 0 0 (⟨10403, 10404, 108222409⟩, ⟨5100, 3331⟩) rfl

end PaillierVote
